import Mathlib

/-!
# Verification of the token-pooling indexing notebook

Shallow embedding of `supporting-blog-content/colpali/04_token_pooling.ipynb`:
the binarizer `to_bit_vectors`, the pooling wrapper `pool_vectors`, the
retrying indexer `index_document`, the per-document driver `process_file`,
the query-vector builder `create_col_pali_query_vectors` and the search call.

Float components only ever flow through the strict comparison `x > 0`, so
patch-embedding components are modelled as rationals (the comparison with
zero has the same semantics, and no float arithmetic occurs in the code).
-/

namespace TokenPooling

/-! ## List helpers shared by the embedding -/

/-- Concatenate a list of lists (plain right fold with append). -/
def concatAll {α : Type} (ls : List (List α)) : List α :=
  ls.foldr (fun a b => a ++ b) []

/-- Fuel-bounded worker for `chunksOf`: structural recursion on the fuel so
that the definition evaluates inside the kernel. -/
def chunksOfFuel {α : Type} (k : Nat) : Nat → List α → List (List α)
  | 0, _ => []
  | _, [] => []
  | fuel + 1, x :: xs => (x :: xs).take k :: chunksOfFuel k fuel ((x :: xs).drop k)

/-- Split a list into consecutive chunks of size `k` (the final chunk may be
shorter).  For `k = 0` or an empty list the result is empty.  This is the
grouping performed by `numpy.packbits` (with `k = 8`). -/
def chunksOf {α : Type} (k : Nat) (l : List α) : List (List α) :=
  if k = 0 then [] else chunksOfFuel k l.length l

@[simp] theorem concatAll_nil {α : Type} : concatAll ([] : List (List α)) = [] := rfl

@[simp] theorem concatAll_cons {α : Type} (a : List α) (ls : List (List α)) :
    concatAll (a :: ls) = a ++ concatAll ls := rfl

@[simp] theorem chunksOfFuel_nil {α : Type} (k fuel : Nat) :
    chunksOfFuel k fuel ([] : List α) = [] := by
  cases fuel <;> rfl

@[simp] theorem chunksOf_nil {α : Type} (k : Nat) : chunksOf k ([] : List α) = [] := by
  unfold chunksOf
  split <;> simp

/-- The result of `chunksOfFuel` does not depend on the fuel, as long as the
fuel covers the length of the list and `k` is positive. -/
theorem chunksOfFuel_congr {α : Type} (k : Nat) (hk : k ≠ 0) :
    ∀ (f₁ f₂ : Nat) (l : List α), l.length ≤ f₁ → l.length ≤ f₂ →
      chunksOfFuel k f₁ l = chunksOfFuel k f₂ l := by
  intro f₁
  induction f₁ with
  | zero =>
    intro f₂ l h₁ _
    have hl : l = [] := List.eq_nil_of_length_eq_zero (Nat.le_zero.mp h₁)
    subst hl
    simp
  | succ f ih =>
    intro f₂ l h₁ h₂
    rcases l with _ | ⟨x, xs⟩
    · simp
    · rcases f₂ with _ | g
      · exact absurd h₂ (by simp)
      · show (x :: xs).take k :: chunksOfFuel k f ((x :: xs).drop k)
            = (x :: xs).take k :: chunksOfFuel k g ((x :: xs).drop k)
        have hdrop : ((x :: xs).drop k).length ≤ xs.length := by
          simp only [List.length_drop, List.length_cons]
          omega
        have hxs₁ : xs.length ≤ f := by
          simpa using Nat.lt_succ_iff.mp (Nat.lt_of_lt_of_le (by simp) h₁)
        have hxs₂ : xs.length ≤ g := by
          simpa using Nat.lt_succ_iff.mp (Nat.lt_of_lt_of_le (by simp) h₂)
        rw [ih _ _ (Nat.le_trans hdrop hxs₁) (Nat.le_trans hdrop hxs₂)]

/-- Unfolding equation for `chunksOf` on a nonempty list. -/
theorem chunksOf_of_ne_nil {α : Type} (k : Nat) (l : List α) (hl : l ≠ []) (hk : k ≠ 0) :
    chunksOf k l = l.take k :: chunksOf k (l.drop k) := by
  rcases l with _ | ⟨x, xs⟩
  · exact absurd rfl hl
  · unfold chunksOf
    simp only [hk, if_false]
    have h1 : chunksOfFuel k (List.length (x :: xs)) (x :: xs)
        = (x :: xs).take k :: chunksOfFuel k xs.length ((x :: xs).drop k) := rfl
    rw [h1]
    congr 1
    exact chunksOfFuel_congr k hk xs.length ((x :: xs).drop k).length ((x :: xs).drop k)
      (by simp only [List.length_drop, List.length_cons]; omega) (Nat.le_refl _)

/-! ## Binarizer (`to_bit_vectors`)

Source:
```
def to_bit_vectors(embedding: list) -> list:
    embeddings = []
    for idx, patch_embedding in enumerate(embedding):
        patch_embedding = np.array(patch_embedding)
        binary_vector = (
            np.packbits(np.where(patch_embedding > 0, 1, 0))
            .astype(np.int8)
            .tobytes()
            .hex()
        )
        embeddings.append(binary_vector)
    return embeddings
```
`np.packbits` packs bits most-significant-first (bitorder default "big") and
pads the final group with trailing zero bits to a full byte; `astype(np.int8)`
reinterprets each byte (two-complement) and `tobytes` emits the identical
octets, so the final `.hex()` string is the lowercase hex of the packed
bytes. -/

/-- `np.where(patch_embedding > 0, 1, 0)` as a list of bits. -/
def signBits (v : List ℚ) : List Bool :=
  v.map (fun x => decide (0 < x))

/-- Value of a bit group, most significant bit first. -/
def bitsToByte (bs : List Bool) : Nat :=
  bs.foldl (fun acc b => 2 * acc + cond b 1 0) 0

/-- Pad a bit group with trailing `false` up to 8 bits (the `packbits`
padding of the final partial byte). -/
def padTo8 (c : List Bool) : List Bool :=
  c ++ List.replicate (8 - c.length) false

/-- `np.packbits`: group into 8-bit chunks (big-endian within a byte),
zero-padding the last chunk. -/
def packbits (bs : List Bool) : List Nat :=
  (chunksOf 8 bs).map (fun c => bitsToByte (padTo8 c))

/-- Lowercase hexadecimal digit for `n < 16`. -/
def hexDigitChar (n : Nat) : Char :=
  if n < 10 then Char.ofNat (48 + n) else Char.ofNat (87 + n)

/-- The character sequence of `bytes.hex()`: two lowercase hex digits per
byte, high nibble first. -/
def bytesToHexChars (bytes : List Nat) : List Char :=
  concatAll (bytes.map (fun b => [hexDigitChar (b / 16), hexDigitChar (b % 16)]))

/-- Loop body of `to_bit_vectors` for one patch embedding. -/
def to_bit_vector (patch_embedding : List ℚ) : String :=
  String.mk (bytesToHexChars (packbits (signBits patch_embedding)))

/-- `to_bit_vectors`: one hex string per input vector, in order. -/
def to_bit_vectors (embedding : List (List ℚ)) : List String :=
  embedding.map to_bit_vector

/-! ## Decoder (specification side, for the round-trip claims)

`decodeBits` maps a hex string back to the bit sequence it encodes: four
bits per hex digit, most significant first. -/

/-- Numeric value of a hexadecimal digit character (0 for junk). -/
def hexVal (c : Char) : Nat :=
  if 48 ≤ c.toNat ∧ c.toNat ≤ 57 then c.toNat - 48
  else if 97 ≤ c.toNat ∧ c.toNat ≤ 102 then c.toNat - 87
  else 0

/-- The four bits of a nibble, most significant first. -/
def bits4 (n : Nat) : List Bool :=
  [decide (n / 8 % 2 = 1), decide (n / 4 % 2 = 1), decide (n / 2 % 2 = 1), decide (n % 2 = 1)]

/-- Decode a character list as hex, four bits per character. -/
def decodeChars (cs : List Char) : List Bool :=
  concatAll (cs.map (fun c => bits4 (hexVal c)))

/-- Decode a hex string to the bit sequence it encodes. -/
def decodeBits (s : String) : List Bool :=
  decodeChars s.data

/-- Recognizer for lowercase hexadecimal digit characters. -/
def isHexLowerDigit (c : Char) : Bool :=
  decide ((48 ≤ c.toNat ∧ c.toNat ≤ 57) ∨ (97 ≤ c.toNat ∧ c.toNat ≤ 102))

/-! ## Lemmas about the binarizer and the decoder -/

theorem concatAll_append {α : Type} (a b : List (List α)) :
    concatAll (a ++ b) = concatAll a ++ concatAll b := by
  induction a with
  | nil => rfl
  | cons x xs ih => simp [concatAll_cons, ih, List.append_assoc]

theorem decodeChars_append (cs ds : List Char) :
    decodeChars (cs ++ ds) = decodeChars cs ++ decodeChars ds := by
  unfold decodeChars
  rw [List.map_append, concatAll_append]

/-- The two nibbles of a packed byte decode back to the original eight bits. -/
theorem bits4_byte (a b c d e f g h : Bool) :
    bits4 (bitsToByte [a, b, c, d, e, f, g, h] / 16)
      ++ bits4 (bitsToByte [a, b, c, d, e, f, g, h] % 16)
      = [a, b, c, d, e, f, g, h] := by
  cases a <;> cases b <;> cases c <;> cases d <;>
    cases e <;> cases f <;> cases g <;> cases h <;> rfl

/-- A packed bit group is bounded by `2 ^ length` (generalized over the fold
accumulator). -/
theorem bitsToByte_foldl_lt (bs : List Bool) :
    ∀ a : Nat, List.foldl (fun acc b => 2 * acc + cond b 1 0) a bs < (a + 1) * 2 ^ bs.length := by
  induction bs with
  | nil => intro a; simp
  | cons b bs ih =>
    intro a
    have h1 : List.foldl (fun acc b => 2 * acc + cond b 1 0) (2 * a + cond b 1 0) bs
        < (2 * a + cond b 1 0 + 1) * 2 ^ bs.length := ih (2 * a + cond b 1 0)
    have h2 : (2 * a + cond b 1 0 + 1) * 2 ^ bs.length ≤ (a + 1) * 2 ^ (b :: bs).length := by
      simp only [List.length_cons, pow_succ]
      have : 2 * a + cond b 1 0 + 1 ≤ (a + 1) * 2 := by cases b <;> simp <;> omega
      calc (2 * a + cond b 1 0 + 1) * 2 ^ bs.length
          ≤ (a + 1) * 2 * 2 ^ bs.length := Nat.mul_le_mul_right _ this
        _ = (a + 1) * (2 ^ bs.length * 2) := by ring
    exact Nat.lt_of_lt_of_le h1 h2

theorem bitsToByte_lt (bs : List Bool) : bitsToByte bs < 2 ^ bs.length := by
  have := bitsToByte_foldl_lt bs 0
  simpa [bitsToByte] using this

theorem padTo8_length (c : List Bool) (h : c.length ≤ 8) : (padTo8 c).length = 8 := by
  simp only [padTo8, List.length_append, List.length_replicate]
  omega

/-- `hexVal` inverts `hexDigitChar` on nibble values. -/
theorem hexVal_hexDigitChar_fin : ∀ n : Fin 16, hexVal (hexDigitChar n.val) = n.val := by
  decide

theorem hexVal_hexDigitChar (n : Nat) (h : n < 16) : hexVal (hexDigitChar n) = n :=
  hexVal_hexDigitChar_fin ⟨n, h⟩

/-- Decoding the two hex digits of one packed byte recovers the padded bit
group. -/
theorem decode_one_byte (c : List Bool) (h : c.length ≤ 8) :
    bits4 (hexVal (hexDigitChar (bitsToByte (padTo8 c) / 16)))
      ++ bits4 (hexVal (hexDigitChar (bitsToByte (padTo8 c) % 16)))
      = padTo8 c := by
  have hlen : (padTo8 c).length = 8 := padTo8_length c h
  have hlt : bitsToByte (padTo8 c) < 256 := by
    have := bitsToByte_lt (padTo8 c)
    rw [hlen] at this
    exact this
  rw [hexVal_hexDigitChar _ (by omega), hexVal_hexDigitChar _ (by omega)]
  rcases hc : padTo8 c with _ | ⟨a, t⟩
  · simp [hc] at hlen
  · rcases t with _ | ⟨b, t⟩ <;> try simp [hc] at hlen
    rcases t with _ | ⟨c3, t⟩ <;> try simp_all
    rcases t with _ | ⟨d, t⟩ <;> try simp_all
    rcases t with _ | ⟨e, t⟩ <;> try simp_all
    rcases t with _ | ⟨f, t⟩ <;> try simp_all
    rcases t with _ | ⟨g, t⟩ <;> try simp_all
    rcases t with _ | ⟨h8, t⟩ <;> try simp_all
    rcases t with _ | ⟨i, t⟩ <;> try simp_all
    exact bits4_byte a b c3 d e f g h8

@[simp] theorem bytesToHexChars_nil : bytesToHexChars [] = [] := rfl

theorem bytesToHexChars_cons (b : Nat) (rest : List Nat) :
    bytesToHexChars (b :: rest)
      = hexDigitChar (b / 16) :: hexDigitChar (b % 16) :: bytesToHexChars rest := rfl

@[simp] theorem decodeChars_nil : decodeChars [] = [] := rfl

theorem decodeChars_cons (c : Char) (cs : List Char) :
    decodeChars (c :: cs) = bits4 (hexVal c) ++ decodeChars cs := rfl

/-- Decoding the hex rendering of `packbits` gives back the bit list, padded
with trailing zero bits up to a byte boundary. -/
theorem decodeChars_packbits (bs : List Bool) :
    decodeChars (bytesToHexChars (packbits bs))
      = bs ++ List.replicate ((8 - bs.length % 8) % 8) false := by
  generalize hn : bs.length = n
  induction n using Nat.strong_induction_on generalizing bs with
  | _ n ih =>
    rcases bs with _ | ⟨x, xs⟩
    · simp only [List.length_nil] at hn
      subst hn
      rfl
    · simp only [List.length_cons] at hn
      have hne : (x :: xs) ≠ [] := by simp
      have hunfold : packbits (x :: xs)
          = bitsToByte (padTo8 ((x :: xs).take 8))
            :: packbits ((x :: xs).drop 8) := by
        unfold packbits
        rw [chunksOf_of_ne_nil 8 _ hne (by omega), List.map_cons]
      rw [hunfold, bytesToHexChars_cons, decodeChars_cons, decodeChars_cons]
      have htake : ((x :: xs).take 8).length ≤ 8 := by
        simp only [List.length_take]
        omega
      have hdec := decode_one_byte ((x :: xs).take 8) htake
      rw [← List.append_assoc, hdec]
      have hlt : ((x :: xs).drop 8).length < n := by
        simp only [List.length_drop, List.length_cons]
        omega
      rw [ih _ hlt _ rfl]
      have hlen : ((x :: xs).drop 8).length = n - 8 := by
        simp only [List.length_drop, List.length_cons]
        omega
      rw [hlen]
      by_cases hc : n ≤ 8
      · have hdrop : (x :: xs).drop 8 = [] :=
          List.drop_eq_nil_of_le (by simp only [List.length_cons]; omega)
        have htakeall : (x :: xs).take 8 = x :: xs :=
          List.take_of_length_le (by simp only [List.length_cons]; omega)
        rw [hdrop, htakeall]
        unfold padTo8
        have e1 : 8 - (x :: xs).length = (8 - n % 8) % 8 := by
          simp only [List.length_cons]
          omega
        have e2 : (8 - (n - 8) % 8) % 8 = 0 := by omega
        rw [e1, e2]
        simp
      · have h8 : ((x :: xs).take 8).length = 8 := by
          simp only [List.length_take, List.length_cons]
          omega
        have hpad : padTo8 ((x :: xs).take 8) = (x :: xs).take 8 := by
          unfold padTo8
          rw [h8]
          simp
        have e3 : (8 - (n - 8) % 8) % 8 = (8 - n % 8) % 8 := by omega
        rw [hpad, e3, ← List.append_assoc, List.take_append_drop]

theorem signBits_length (v : List ℚ) : (signBits v).length = v.length :=
  List.length_map _ _

/-- Decoding the hex string of one binarized vector yields its sign bits
followed by the byte-boundary zero padding. -/
theorem decodeBits_to_bit_vector (v : List ℚ) :
    decodeBits (to_bit_vector v)
      = signBits v ++ List.replicate ((8 - v.length % 8) % 8) false := by
  show decodeChars (bytesToHexChars (packbits (signBits v))) = _
  rw [decodeChars_packbits, signBits_length]

/-- Every chunk produced by `chunksOf` has length at most `k`. -/
theorem length_le_of_mem_chunksOf {α : Type} (k : Nat) (l c : List α)
    (hc : c ∈ chunksOf k l) : c.length ≤ k := by
  generalize hn : l.length = n at *
  induction n using Nat.strong_induction_on generalizing l with
  | _ n ih =>
    rcases l with _ | ⟨x, xs⟩
    · simp at hc
    · simp only [List.length_cons] at hn
      by_cases hk : k = 0
      · subst hk
        unfold chunksOf at hc
        simp at hc
      · rw [chunksOf_of_ne_nil _ _ (by simp) hk] at hc
        rcases List.mem_cons.mp hc with hc | hc
        · subst hc
          simp only [List.length_take]
          omega
        · exact ih ((x :: xs).drop k).length
            (by simp only [List.length_drop, List.length_cons]; omega)
            ((x :: xs).drop k) hc rfl

/-- Every byte produced by `packbits` fits in one octet. -/
theorem packbits_lt (bs : List Bool) : ∀ b ∈ packbits bs, b < 256 := by
  intro b hb
  simp only [packbits, List.mem_map] at hb
  obtain ⟨c, hc, rfl⟩ := hb
  have hcl : c.length ≤ 8 := length_le_of_mem_chunksOf 8 bs c hc
  have hlt := bitsToByte_lt (padTo8 c)
  rw [padTo8_length c hcl] at hlt
  norm_num at hlt
  exact hlt

theorem isHexLowerDigit_hexDigitChar :
    ∀ n : Fin 16, isHexLowerDigit (hexDigitChar n.val) = true := by
  decide

/-- Every character of the hex rendering of in-range bytes is a lowercase
hexadecimal digit. -/
theorem bytesToHexChars_hex (bytes : List Nat) (h : ∀ b ∈ bytes, b < 256) :
    ∀ c ∈ bytesToHexChars bytes, isHexLowerDigit c = true := by
  induction bytes with
  | nil => intro c hc; simp at hc
  | cons b rest ih =>
    intro c hc
    rw [bytesToHexChars_cons] at hc
    have hb : b < 256 := h b (by simp)
    rcases List.mem_cons.mp hc with hc | hc
    · subst hc
      exact isHexLowerDigit_hexDigitChar ⟨b / 16, by omega⟩
    rcases List.mem_cons.mp hc with hc | hc
    · subst hc
      exact isHexLowerDigit_hexDigitChar ⟨b % 16, by omega⟩
    · exact ih (fun x hx => h x (by simp [hx])) c hc

/-- Every character of a binarized vector is a lowercase hex digit. -/
theorem to_bit_vector_chars_hex (v : List ℚ) :
    ∀ c ∈ (to_bit_vector v).data, isHexLowerDigit c = true := by
  intro c hc
  exact bytesToHexChars_hex _ (packbits_lt (signBits v)) c hc

theorem bytesToHexChars_length (bytes : List Nat) :
    (bytesToHexChars bytes).length = 2 * bytes.length := by
  induction bytes with
  | nil => rfl
  | cons b rest ih =>
    rw [bytesToHexChars_cons]
    simp only [List.length_cons, ih]
    omega

/-! ## Pooler (`pool_vectors`)

Source:
```
pooler = HierarchicalTokenPooler(
    pool_factor=3
)


def pool_vectors(embedding: list) -> list:
    tensor = torch.tensor(embedding).unsqueeze(0)
    pooled = pooler.pool_embeddings(tensor)
    return pooled.squeeze(0).tolist()
```
-/

/-- Modelled from the spec: `HierarchicalTokenPooler` lives in the external
colpali-engine package and is not part of this repository.  The spec
describes a pooled embedding set as "produced by merging semantically
similar adjacent entries under a fixed reduction factor"; we model the
merge of one group of adjacent vectors as their componentwise mean. -/
def mergeGroup (g : List (List ℚ)) : List ℚ :=
  match g with
  | [] => []
  | v :: rest =>
    (rest.foldl (fun a b => List.zipWith (fun x y => x + y) a b) v).map
      (fun x => x / (g.length : ℚ))

/-- Modelled from the spec: the external pooling routine, merging each group
of `pool_factor` adjacent entries of the sequence into one merged vector. -/
def hierarchicalTokenPooler (pf : Nat) (embedding : List (List ℚ)) : List (List ℚ) :=
  (chunksOf pf embedding).map mergeGroup

/-- The fixed reduction factor the notebook passes to the pooler. -/
def pool_factor : Nat := 3

/-- `pool_vectors`: the `unsqueeze` / `squeeze` pair adds and removes the
batch dimension around the external pooling call and `tolist` converts back
to lists, so at the list level the wrapper is the pooler applied to the
embedding sequence with the fixed factor. -/
def pool_vectors (embedding : List (List ℚ)) : List (List ℚ) :=
  hierarchicalTokenPooler pool_factor embedding

theorem chunksOf_three_length {α : Type} (l : List α) :
    (chunksOf 3 l).length = (l.length + 2) / 3 := by
  generalize hn : l.length = n
  induction n using Nat.strong_induction_on generalizing l with
  | _ n ih =>
    rcases l with _ | ⟨x, xs⟩
    · simp only [List.length_nil] at hn
      subst hn
      simp
    · simp only [List.length_cons] at hn
      rw [chunksOf_of_ne_nil 3 _ (by simp) (by omega)]
      simp only [List.length_cons]
      rw [ih ((x :: xs).drop 3).length
        (by simp only [List.length_drop, List.length_cons]; omega) _ rfl]
      simp only [List.length_drop, List.length_cons]
      omega

/-! ## Indexer (`index_document`)

Source:
```
def index_document(es_client, index, doc_id, document, retries=10, initial_backoff=1):
    for attempt in range(1, retries + 1):
        try:
            return es_client.index(index=index, id=doc_id, document=document)
        except Exception as e:
            if attempt < retries:
                wait_time = initial_backoff * (2 ** (attempt - 1))
                print(f"[WARN] Failed to index {doc_id} (attempt {attempt}): {e}")
                time.sleep(wait_time)
            else:
                print(f"Failed to index {doc_id} after {retries} attempts: {e}")
                raise
```
No cell of the notebook ever imports the `time` module, so when the backoff
branch runs, the lookup of the global name `time` raises `NameError` from
inside the except handler; the loop neither sleeps nor continues to the
next attempt in that case.  The flag `time_defined` of the worker models
whether the name `time` resolves; the notebook entry point fixes it to the
notebook namespace, where it does not. -/

/-- Outcome of one `index_document` call. -/
inductive IndexOutcome where
  /-- The write of this attempt succeeded and its result was returned. -/
  | success (attempt : Nat)
  /-- The bare `raise` re-raised the write error of this (final) attempt. -/
  | raisedWriteError (attempt : Nat)
  /-- Evaluating `time.sleep` raised `NameError` during handling of the
  write error of this attempt. -/
  | raisedNameError (attempt : Nat)
  /-- The loop body never ran (`retries = 0`) and the function returned
  `None`. -/
  | fellThrough
deriving DecidableEq

/-- Trace of one `index_document` call: final outcome, number of
`es_client.index` calls made, and the backoff delays actually slept. -/
structure IndexRun where
  result : IndexOutcome
  attempts : Nat
  delays : List Nat
deriving DecidableEq

/-- The retry loop.  `succeeds n` is the outcome of the external
`es_client.index` call of attempt `n`; recursion is on the remaining
iterations of `range(1, retries + 1)`. -/
def index_document_go (succeeds : Nat → Bool) (initial_backoff : Nat)
    (time_defined : Bool) : Nat → Nat → IndexRun
  | 0, _ => ⟨.fellThrough, 0, []⟩
  | remaining + 1, attempt =>
    if succeeds attempt then ⟨.success attempt, 1, []⟩
    else if remaining = 0 then ⟨.raisedWriteError attempt, 1, []⟩
    else if time_defined then
      let wait_time := initial_backoff * 2 ^ (attempt - 1)
      let rest := index_document_go succeeds initial_backoff time_defined
        remaining (attempt + 1)
      ⟨rest.result, rest.attempts + 1, wait_time :: rest.delays⟩
    else ⟨.raisedNameError attempt, 1, []⟩

/-- Whether the global name `time` resolves in the notebook namespace: no
cell contains an `import` of the `time` module. -/
def notebook_time_defined : Bool := false

/-- `index_document` as it runs in the notebook.  The notebook calls it with
the default `retries = 10` and `initial_backoff = 1`. -/
def index_document (succeeds : Nat → Bool) (retries initial_backoff : Nat) : IndexRun :=
  index_document_go succeeds initial_backoff notebook_time_defined retries 1

/-- The same loop in a namespace where `time` resolves: the behaviour the
code was written to have (its own log line speaks of failing only "after
{retries} attempts"). -/
def index_document_intended (succeeds : Nat → Bool) (retries initial_backoff : Nat) :
    IndexRun :=
  index_document_go succeeds initial_backoff true retries 1

/-! ## Per-document driver (`process_file`)

Source:
```
def process_file(file_name, vectors):
    if es.exists(index=INDEX_NAME, id=file_name):
        return

    pooled_vectors = pool_vectors(vectors)

    bit_vectors = to_bit_vectors(pooled_vectors)

    index_document(
        es_client=es,
        index=INDEX_NAME,
        doc_id=file_name,
        document= dict of "pooled_col_pali_vectors" to bit_vectors,
    )
```
The external index state is modelled as the list of document ids present;
the returned trace records the calls made. -/

/-- Externally visible calls of `process_file`. -/
inductive EsAction where
  | existsCheck (doc_id : String)
  | poolCall
  | binarizeCall
  | indexWrite (doc_id : String)
deriving DecidableEq

/-- Result of one `process_file` call: the trace of calls, and the document
written (id and bit-vector field), if any. -/
structure ProcessResult where
  actions : List EsAction
  written : Option (String × List String)
deriving DecidableEq

/-- Number of index writes in a trace. -/
def countWrites (actions : List EsAction) : Nat :=
  actions.countP (fun a => match a with
    | EsAction.indexWrite _ => true
    | _ => false)

def INDEX_NAME : String := "searchlabs-colpali-token-pooling"

/-- `process_file`: skip when the id already exists in the index, otherwise
pool, binarize and write. -/
def process_file (index_ids : List String) (file_name : String)
    (vectors : List (List ℚ)) : ProcessResult :=
  if file_name ∈ index_ids then
    ⟨[.existsCheck file_name], none⟩
  else
    let pooled_vectors := pool_vectors vectors
    let bit_vectors := to_bit_vectors pooled_vectors
    ⟨[.existsCheck file_name, .poolCall, .binarizeCall, .indexWrite file_name],
      some (file_name, bit_vectors)⟩

/-! ## Query path

Source:
```
def create_col_pali_query_vectors(query: str) -> list:
    queries = col_pali_processor.process_queries([query]).to(model.device)
    with torch.no_grad():
        return model(**queries).tolist()[0]
```
and the search cell, which builds one `script_score` body around the encoder
output and issues a single `es.search` call with no exception handling. -/

/-- The query encoder: the external model is a parameter mapping the batch of
query strings to a batch of outputs of opaque type `E`; the code takes
element 0 of the batch.  Indexing `[0]` of an empty batch is an IndexError,
hence the `Option`. -/
def create_col_pali_query_vectors {E : Type} (model_forward : List String → List E)
    (query : String) : Option E :=
  (model_forward [query]).head?

/-- The `es_query` body built in the search cell. -/
structure EsQuery (E : Type) where
  source_enabled : Bool
  script_source : String
  query_vector : E
  size : Nat

def maxSimDotProduct_script : String :=
  "maxSimDotProduct(params.query_vector, \x27pooled_col_pali_vectors\x27)"

/-- The literal request body: `_source: False`, the late-interaction script
with the encoder output as `query_vector` parameter, `size: 5`. -/
def build_es_query {E : Type} (query_vector : E) : EsQuery E :=
  ⟨false, maxSimDotProduct_script, query_vector, 5⟩

/-- The search cell: one `es.search` call with the built body; its outcome,
success or failure, is returned directly (no try/except, no loop).  The
`Nat` component counts the search calls issued. -/
def run_search {E R Err : Type} (search : EsQuery E → Except Err R)
    (query_vector : E) : Except Err R × Nat :=
  (search (build_es_query query_vector), 1)

theorem decodeChars_length (cs : List Char) : (decodeChars cs).length = 4 * cs.length := by
  induction cs with
  | nil => rfl
  | cons c rest ih =>
    rw [decodeChars_cons]
    simp only [List.length_append, List.length_cons, ih]
    have h4 : (bits4 (hexVal c)).length = 4 := rfl
    rw [h4]
    omega

theorem string_mk_length (cs : List Char) : (String.mk cs).length = cs.length := rfl

end TokenPooling

namespace TokenPooling

/-! ## Claim theorems -/

/-- C1: `to_bit_vectors` returns one hexadecimal string per input vector, in
the same order; the string of each vector encodes its sign pattern (a
strictly positive component gives bit 1, any other component bit 0), the
bits packed big-endian into bytes with trailing zero padding, rendered with
lowercase hex digits only. -/
theorem to_bit_vectors_encodes_sign_patterns (embedding : List (List ℚ)) :
    (to_bit_vectors embedding).length = embedding.length ∧
    ∀ (i : Nat) (v : List ℚ), embedding[i]? = some v →
      (to_bit_vectors embedding)[i]? = some (to_bit_vector v) ∧
      decodeBits (to_bit_vector v)
        = v.map (fun x => decide (0 < x))
          ++ List.replicate ((8 - v.length % 8) % 8) false ∧
      ∀ c ∈ (to_bit_vector v).data, isHexLowerDigit c = true := by
  refine ⟨List.length_map _ _, ?_⟩
  intro i v hv
  refine ⟨?_, ?_, to_bit_vector_chars_hex v⟩
  · unfold to_bit_vectors
    rw [List.getElem?_map, hv]
    rfl
  · rw [decodeBits_to_bit_vector]
    rfl

/-- Witness for C1 at the single three-component vector `[1, -2, 0]`. -/
theorem to_bit_vectors_encodes_sign_patterns_witness :
    (to_bit_vectors [[(1 : ℚ), -2, 0]]).length = 1 ∧
    (to_bit_vectors [[(1 : ℚ), -2, 0]])[0]? = some (to_bit_vector [(1 : ℚ), -2, 0]) ∧
    decodeBits (to_bit_vector [(1 : ℚ), -2, 0])
      = [true, false, false] ++ List.replicate 5 false := by
  obtain ⟨h1, h2⟩ := to_bit_vectors_encodes_sign_patterns [[(1 : ℚ), -2, 0]]
  obtain ⟨ha, hb, -⟩ := h2 0 [(1 : ℚ), -2, 0] rfl
  refine ⟨h1, ha, ?_⟩
  rw [hb]
  rfl

/-- C2: the claim says a write that fails transiently `N < 10` times returns
the later successful result after geometrically growing backoff delays.  The
code as it stands does not: since no notebook cell ever does an `import` of
the `time` module, the first retry raises `NameError` from the except
handler after a single attempt, with no delay slept.  The second conjunct
shows the loop with `time` available behaving exactly as the claim states
(success on attempt `N + 1`, delays `1, 2, 4, ...`), pinning the missing
module as the one divergence. -/
theorem index_document_retry_divergence :
    index_document (fun a => decide (a ≠ 1)) 10 1
      = ⟨IndexOutcome.raisedNameError 1, 1, []⟩ ∧
    index_document_intended (fun a => decide (a ≠ 1)) 10 1
      = ⟨IndexOutcome.success 2, 2, [1]⟩ ∧
    index_document_intended (fun a => decide (3 < a)) 10 1
      = ⟨IndexOutcome.success 4, 4, [1, 2, 4]⟩ :=
  ⟨rfl, rfl, rfl⟩

/-- C3: the claim says that when every attempt fails the call makes exactly
10 attempts and re-raises the final write error.  The code as it stands
makes one attempt and raises `NameError` (no `time` module in the notebook
namespace); the second conjunct shows the loop with `time` available doing
what the claim states: 10 attempts, the write error of attempt 10
re-raised, nine backoff delays. -/
theorem index_document_exhaustion_divergence :
    index_document (fun _ => false) 10 1
      = ⟨IndexOutcome.raisedNameError 1, 1, []⟩ ∧
    index_document_intended (fun _ => false) 10 1
      = ⟨IndexOutcome.raisedWriteError 10, 10, [1, 2, 4, 8, 16, 32, 64, 128, 256]⟩ :=
  ⟨rfl, rfl⟩

/-- C4: for a document id already present in the index, `process_file`
returns after the existence check: no pooling, no binarization, no write —
so re-runs over indexed documents perform zero writes. -/
theorem process_file_skips_existing (index_ids : List String) (file_name : String)
    (vectors : List (List ℚ)) (h : file_name ∈ index_ids) :
    (process_file index_ids file_name vectors).written = none ∧
    (process_file index_ids file_name vectors).actions
      = [EsAction.existsCheck file_name] ∧
    countWrites (process_file index_ids file_name vectors).actions = 0 := by
  unfold process_file
  rw [if_pos h]
  exact ⟨rfl, rfl, rfl⟩

/-- Witness for C4: re-running on a document already in the index. -/
theorem process_file_skips_existing_witness :
    (process_file ["doc1.png"] "doc1.png" [[(1 : ℚ)]]).written = none ∧
    (process_file ["doc1.png"] "doc1.png" [[(1 : ℚ)]]).actions
      = [EsAction.existsCheck "doc1.png"] ∧
    countWrites (process_file ["doc1.png"] "doc1.png" [[(1 : ℚ)]]).actions = 0 :=
  process_file_skips_existing ["doc1.png"] "doc1.png" [[(1 : ℚ)]]
    (List.mem_singleton.mpr rfl)

/-- C5: decoding the hex string of a binarized vector reproduces the sign
pattern of the vector: for every index below the dimension, bit `i` is 1
iff component `i` is strictly positive. -/
theorem decode_bit_vector_sign_pattern (v : List ℚ) (i : Nat) (x : ℚ)
    (h : v[i]? = some x) :
    (decodeBits (to_bit_vector v))[i]? = some (decide (0 < x)) := by
  have hi : i < v.length := by
    by_contra hc
    rw [List.getElem?_eq_none (by omega)] at h
    exact Option.noConfusion h
  rw [decodeBits_to_bit_vector]
  rw [List.getElem?_append_left (by rw [signBits_length]; exact hi)]
  unfold signBits
  rw [List.getElem?_map, h]
  rfl

/-- Witness for C5 at `[-3, 5]`, index 1. -/
theorem decode_bit_vector_sign_pattern_witness :
    (decodeBits (to_bit_vector [(-3 : ℚ), 5]))[1]? = some true :=
  decode_bit_vector_sign_pattern [(-3 : ℚ), 5] 1 5 rfl

/-- C6: the query encoder produces exactly one output per request — element
0 of the singleton batch the external model returns — and it is passed
unchanged (no pooling, no binarization applied) as the `query_vector`
parameter of the similarity request, with `size` 5. -/
theorem create_col_pali_query_vectors_single {E : Type}
    (model_forward : List String → List E) (q : String) (e : E)
    (h : model_forward [q] = [e]) :
    create_col_pali_query_vectors model_forward q = some e ∧
    (build_es_query e).query_vector = e ∧
    (build_es_query e).script_source = maxSimDotProduct_script ∧
    (build_es_query e).size = 5 := by
  unfold create_col_pali_query_vectors
  rw [h]
  exact ⟨rfl, rfl, rfl, rfl⟩

/-- Witness for C6 with a concrete one-element batch. -/
theorem create_col_pali_query_vectors_single_witness :
    create_col_pali_query_vectors (fun _ => [(42 : Nat)]) "what is this" = some 42 ∧
    (build_es_query (42 : Nat)).query_vector = 42 ∧
    (build_es_query (42 : Nat)).script_source = maxSimDotProduct_script ∧
    (build_es_query (42 : Nat)).size = 5 :=
  create_col_pali_query_vectors_single (fun _ => [(42 : Nat)]) "what is this" 42 rfl

/-- C7: pooling with the fixed factor 3 never lengthens the sequence, and
the output length is the input length divided by 3 rounded up — between
`n / 3` and `n / 3 + 1`. -/
theorem pool_vectors_length (embedding : List (List ℚ)) :
    (pool_vectors embedding).length ≤ embedding.length ∧
    (pool_vectors embedding).length = (embedding.length + 2) / 3 ∧
    embedding.length / 3 ≤ (pool_vectors embedding).length ∧
    (pool_vectors embedding).length ≤ embedding.length / 3 + 1 := by
  have h : (pool_vectors embedding).length = (embedding.length + 2) / 3 := by
    unfold pool_vectors hierarchicalTokenPooler pool_factor
    rw [List.length_map, chunksOf_three_length]
  refine ⟨?_, h, ?_, ?_⟩ <;> rw [h] <;> omega

/-- C8: the query path issues exactly one search call per request and
returns whatever the external engine produced; in particular an engine
failure is surfaced to the caller as-is, with no retry. -/
theorem run_search_no_retry {E R Err : Type} (search : EsQuery E → Except Err R)
    (qv : E) :
    (run_search search qv).2 = 1 ∧
    (run_search search qv).1 = search (build_es_query qv) ∧
    ∀ err, search (build_es_query qv) = Except.error err →
      (run_search search qv).1 = Except.error err :=
  ⟨rfl, rfl, fun _ h => h⟩

/-- Witness for C8: a failing engine call, surfaced unchanged. -/
theorem run_search_no_retry_witness :
    (run_search (fun _ : EsQuery Nat => (Except.error 7 : Except Nat Nat)) 0).2 = 1 ∧
    (run_search (fun _ : EsQuery Nat => (Except.error 7 : Except Nat Nat)) 0).1
      = Except.error 7 := by
  obtain ⟨h1, -, h3⟩ :=
    run_search_no_retry (fun _ : EsQuery Nat => (Except.error 7 : Except Nat Nat)) 0
  exact ⟨h1, h3 7 rfl⟩

/-- C9: the binarization is deterministic — applied twice to the same input
it yields the same hexadecimal strings. -/
theorem to_bit_vectors_deterministic (embedding : List (List ℚ)) :
    to_bit_vectors embedding = to_bit_vectors embedding := rfl

/-- C10: the hex string of a `d`-dimensional vector encodes exactly
`8 * ceil(d / 8)` bits (`2 * ceil(d / 8)` hex digits), the bits past
dimension `d` being trailing zero padding; dimensions 1 and 8 collide on
the same string; the empty vector gives the empty string and the empty
input sequence the empty output list. -/
theorem to_bit_vector_padding_and_edge_cases :
    (∀ v : List ℚ,
      (decodeBits (to_bit_vector v)).length = 8 * ((v.length + 7) / 8) ∧
      (to_bit_vector v).length = 2 * ((v.length + 7) / 8) ∧
      ∀ i, v.length ≤ i → i < 8 * ((v.length + 7) / 8) →
        (decodeBits (to_bit_vector v))[i]? = some false) ∧
    to_bit_vector ([] : List ℚ) = "" ∧
    to_bit_vectors ([] : List (List ℚ)) = [] ∧
    to_bit_vector [(1 : ℚ)]
      = to_bit_vector [(1 : ℚ), -1, -1, -1, -1, -1, -1, -1] ∧
    (1 : Nat) ≠ 8 := by
  refine ⟨?_, rfl, rfl, rfl, by omega⟩
  intro v
  have hdec := decodeBits_to_bit_vector v
  have hlen : (decodeBits (to_bit_vector v)).length = 8 * ((v.length + 7) / 8) := by
    rw [hdec]
    simp only [List.length_append, List.length_replicate, signBits_length]
    omega
  refine ⟨hlen, ?_, ?_⟩
  · have h4 : 4 * (to_bit_vector v).length = (decodeBits (to_bit_vector v)).length := by
      unfold decodeBits
      rw [decodeChars_length]
      rfl
    omega
  · intro i hi hilt
    rw [hdec]
    rw [List.getElem?_append_right (by rw [signBits_length]; exact hi)]
    rw [signBits_length]
    exact List.getElem?_replicate_of_lt (by omega)

/-- Witness for C10: padding bit of the three-component vector at index 3. -/
theorem to_bit_vector_padding_witness :
    (decodeBits (to_bit_vector [(1 : ℚ), 2, 3])).length = 8 ∧
    (to_bit_vector [(1 : ℚ), 2, 3]).length = 2 ∧
    (decodeBits (to_bit_vector [(1 : ℚ), 2, 3]))[3]? = some false := by
  obtain ⟨hall, -⟩ := to_bit_vector_padding_and_edge_cases
  obtain ⟨h1, h2, h3⟩ := hall [(1 : ℚ), 2, 3]
  exact ⟨h1, h2, h3 3 (by decide) (by decide)⟩

end TokenPooling
